import Mathlib

/-!
Shallow embedding of `core_op_metadata.cpp` (hailort core-op metadata model)
together with theorems checking the specification claims against the code.

Machine integers are modelled as `Nat` (sizes and bitmaps never overflow in
the properties below), fallible C++ `Expected<T>` values as
`Except HailoStatus T`, and the external per-layer helper functions
(`LayerInfoUtils::get_transfer_size`, vstream conversion) as explicit
function parameters, as the spec treats them as external collaborators.
-/

namespace HailoRT

/-- Stream direction, `HAILO_H2D_STREAM` / `HAILO_D2H_STREAM`. -/
inductive StreamDirection : Type where
  | H2D
  | D2H
deriving DecidableEq, Repr

/-- Error kinds used by the embedded operations (`hailo_status` values that
appear in `core_op_metadata.cpp`, plus one stand-in for any other failure an
external per-layer function may surface). -/
inductive HailoStatus : Type where
  | NOT_FOUND
  | INTERNAL_FAILURE
  | INVALID_OPERATION
deriving DecidableEq, Repr

/-- `LayerInfo`: one logical data stream.  `predecessor` is the mux tree
(meaningful when `is_mux`), `fused_nms_layer` holds the fused-layer
descriptor of a defused NMS fragment (the C++ code accesses element 0). -/
inductive LayerInfo : Type where
  | mk (name : String) (direction : StreamDirection) (network_name : String)
       (is_mux : Bool) (predecessor : List LayerInfo)
       (is_defused_nms : Bool) (fused_nms_layer : List LayerInfo)

/-- Accessor for the `name` field of a `LayerInfo`. -/
def LayerInfo.name : LayerInfo → String
  | .mk n _ _ _ _ _ _ => n

/-- Accessor for the `direction` field of a `LayerInfo`. -/
def LayerInfo.direction : LayerInfo → StreamDirection
  | .mk _ d _ _ _ _ _ => d

/-- Accessor for the `network_name` field of a `LayerInfo`. -/
def LayerInfo.network_name : LayerInfo → String
  | .mk _ _ nn _ _ _ _ => nn

/-- Accessor for the `is_mux` field of a `LayerInfo`. -/
def LayerInfo.is_mux : LayerInfo → Bool
  | .mk _ _ _ m _ _ _ => m

/-- Accessor for the `predecessor` field of a `LayerInfo`. -/
def LayerInfo.predecessor : LayerInfo → List LayerInfo
  | .mk _ _ _ _ p _ _ => p

/-- Accessor for the `is_defused_nms` field of a `LayerInfo`. -/
def LayerInfo.is_defused_nms : LayerInfo → Bool
  | .mk _ _ _ _ _ d _ => d

/-- Accessor for the `fused_nms_layer` field of a `LayerInfo`. -/
def LayerInfo.fused_nms_layer : LayerInfo → List LayerInfo
  | .mk _ _ _ _ _ _ f => f

mutual

/-- Embedding of `get_demuxes_names` / `get_demuxes_names_impl`: if the layer
is not a mux the result is its own name, otherwise the concatenation of the
recursive results over `predecessor` in order. -/
def get_demuxes_names : LayerInfo → List String
  | .mk n _ _ mux preds _ _ =>
    if mux then demux_names_list preds else [n]

/-- The loop of `get_demuxes_names_impl` over a predecessor list. -/
def demux_names_list : List LayerInfo → List String
  | [] => []
  | p :: ps => get_demuxes_names p ++ demux_names_list ps

end

mutual

/-- Embedding of `is_edge_under_mux`, keeping the redundant re-test of the
parent's `is_mux` inside the loop over predecessors exactly as the C++ code
performs it. -/
def is_edge_under_mux : LayerInfo → String → Bool
  | .mk n _ _ mux preds _ _, edge_name =>
    if !mux then edge_name == n
    else edge_under_mux_loop mux preds edge_name

/-- The loop of `is_edge_under_mux` over predecessors; the first argument is
the parent layer's `is_mux` flag, re-tested on every iteration as in the
C++ source. -/
def edge_under_mux_loop : Bool → List LayerInfo → String → Bool
  | _, [], _ => false
  | parent_mux, p :: ps, edge_name =>
    if parent_mux then
      if is_edge_under_mux p edge_name then true
      else edge_under_mux_loop parent_mux ps edge_name
    else
      if edge_name == p.name then true
      else edge_under_mux_loop parent_mux ps edge_name

end

mutual

/-- Simplified variant of `is_edge_under_mux` described by the spec: for each
predecessor, recurse when the predecessor is a mux and otherwise compare the
name directly. -/
def is_edge_under_mux_simplified : LayerInfo → String → Bool
  | .mk n _ _ mux preds _ _, edge_name =>
    if !mux then edge_name == n
    else simplified_edge_loop preds edge_name

/-- The loop of the simplified edge-under-mux variant. -/
def simplified_edge_loop : List LayerInfo → String → Bool
  | [], _ => false
  | p :: ps, edge_name =>
    (if p.is_mux then is_edge_under_mux_simplified p edge_name
     else edge_name == p.name)
    || simplified_edge_loop ps edge_name

end

mutual

/-- Spec-side definition, following the spec's words: the non-mux leaf layers
reachable from a layer, in depth-first predecessor order. -/
def spec_leaf_layers : LayerInfo → List LayerInfo
  | .mk n d nn mux preds defd fl =>
    if mux then spec_leaf_layers_list preds
    else [.mk n d nn mux preds defd fl]

/-- Depth-first, left-to-right concatenation of the reachable leaves of a
list of layers. -/
def spec_leaf_layers_list : List LayerInfo → List LayerInfo
  | [] => []
  | p :: ps => spec_leaf_layers p ++ spec_leaf_layers_list ps

end

/-- A virtual-stream descriptor (`hailo_vstream_info_t`): the embedded model
keeps the name, which is all the queries below inspect, plus an opaque
payload so that distinct descriptors with equal names can exist. -/
structure VStreamInfo : Type where
  name : String
  payload : Nat
deriving DecidableEq, Repr

/-- `SupportedFeatures`, restricted to the flag the embedded queries read. -/
structure SupportedFeatures : Type where
  hailo_net_flow : Bool
deriving DecidableEq, Repr

/-- `ContextMetadata`: the six categorized edge-layer lists plus the
config-buffer map (`ConfigBufferInfoMap`: buffer id to the ordered byte
sizes of its recorded writes).  The opaque action list is not modelled, as
no checked claim reads it. -/
structure ContextMetadata : Type where
  boundary_input_layers : List LayerInfo
  boundary_output_layers : List LayerInfo
  inter_context_input_layers : List LayerInfo
  inter_context_output_layers : List LayerInfo
  ddr_input_layers : List LayerInfo
  ddr_output_layers : List LayerInfo
  config_buffers_info : List (Nat × List Nat)

/-- `CoreOpMetadata`. -/
structure CoreOpMetadata : Type where
  core_op_name : String
  preliminary_context : ContextMetadata
  dynamic_contexts : List ContextMetadata
  sorted_output_names : List String
  supported_features : SupportedFeatures
  output_vstreams_infos : List VStreamInfo
  sorted_network_names : List String

/-- Embedding of the unfiltered `CoreOpMetadata::get_input_layer_infos`:
boundary input layers pushed in order over the dynamic contexts only. -/
def get_input_layer_infos (m : CoreOpMetadata) : List LayerInfo :=
  m.dynamic_contexts.foldl (fun res c =>
    c.boundary_input_layers.foldl (fun res l => res ++ [l]) res) []

/-- Embedding of the unfiltered `CoreOpMetadata::get_output_layer_infos`. -/
def get_output_layer_infos (m : CoreOpMetadata) : List LayerInfo :=
  m.dynamic_contexts.foldl (fun res c =>
    c.boundary_output_layers.foldl (fun res l => res ++ [l]) res) []

/-- Embedding of `CoreOpMetadata::get_all_layer_infos`: inputs then
outputs. -/
def get_all_layer_infos (m : CoreOpMetadata) : List LayerInfo :=
  get_input_layer_infos m ++ get_output_layer_infos m

/-- The filter used by the network-filtered layer queries: the layer's
network name equals the request, or the request is empty, or the request
equals the default-network name (tested in the C++ operand order).  The
default-network name is produced by code outside the analysed source file,
so it is passed in as the `dflt` parameter. -/
def network_matches (dflt network_name : String) (l : LayerInfo) : Bool :=
  l.network_name == network_name || network_name == "" || network_name == dflt

/-- Embedding of the network-filtered `CoreOpMetadata::get_input_layer_infos`
overload: push every matching boundary input layer over the dynamic contexts,
then fail `NOT_FOUND` unless the result is non-empty. -/
def get_input_layer_infos_of_network (dflt : String) (m : CoreOpMetadata)
    (network_name : String) : Except HailoStatus (List LayerInfo) :=
  let res := m.dynamic_contexts.foldl (fun res c =>
    c.boundary_input_layers.foldl (fun res l =>
      if network_matches dflt network_name l then res ++ [l] else res) res) []
  if 0 < res.length then .ok res else .error .NOT_FOUND

/-- Embedding of the network-filtered
`CoreOpMetadata::get_output_layer_infos` overload. -/
def get_output_layer_infos_of_network (dflt : String) (m : CoreOpMetadata)
    (network_name : String) : Except HailoStatus (List LayerInfo) :=
  let res := m.dynamic_contexts.foldl (fun res c =>
    c.boundary_output_layers.foldl (fun res l =>
      if network_matches dflt network_name l then res ++ [l] else res) res) []
  if 0 < res.length then .ok res else .error .NOT_FOUND

/-- Spec-side form of the filtered input query: the flattened boundary input
layers of the dynamic contexts, filtered by the matching rule. -/
def spec_filtered_input_layers (dflt : String) (m : CoreOpMetadata)
    (network_name : String) : List LayerInfo :=
  ((m.dynamic_contexts.map ContextMetadata.boundary_input_layers).flatten).filter
    (network_matches dflt network_name)

/-- Spec-side form of the filtered output query. -/
def spec_filtered_output_layers (dflt : String) (m : CoreOpMetadata)
    (network_name : String) : List LayerInfo :=
  ((m.dynamic_contexts.map ContextMetadata.boundary_output_layers).flatten).filter
    (network_matches dflt network_name)

/-- Embedding of `ContextMetadata::get_layers_transfer_size`: accumulate the
external per-layer transfer-size function `ts` over a layer list, aborting on
the first failure (`CHECK_EXPECTED`). -/
def get_layers_transfer_size (ts : LayerInfo → Except HailoStatus Nat)
    (layer_infos : List LayerInfo) : Except HailoStatus Nat :=
  layer_infos.foldlM (fun total l => (ts l).map (fun s => total + s)) 0

/-- Embedding of `ContextMetadata::get_context_transfer_size`: config-buffer
sizes flattened over all buffers and writes, plus the per-layer transfer
sizes of the six edge-layer lists, evaluated in the C++ order. -/
def get_context_transfer_size (ts : LayerInfo → Except HailoStatus Nat)
    (c : ContextMetadata) : Except HailoStatus Nat := do
  let config_total := c.config_buffers_info.foldl
    (fun acc kv => acc + kv.2.foldl (· + ·) 0) 0
  let boundary_input ← get_layers_transfer_size ts c.boundary_input_layers
  let boundary_output ← get_layers_transfer_size ts c.boundary_output_layers
  let ddr_input ← get_layers_transfer_size ts c.ddr_input_layers
  let ddr_output ← get_layers_transfer_size ts c.ddr_output_layers
  let inter_context_input ← get_layers_transfer_size ts c.inter_context_input_layers
  let inter_context_output ← get_layers_transfer_size ts c.inter_context_output_layers
  pure (config_total + (boundary_input + boundary_output +
    ddr_input + ddr_output + inter_context_input + inter_context_output))

/-- Embedding of `CoreOpMetadata::get_total_transfer_size`: accumulate the
per-context transfer sizes over the dynamic contexts only. -/
def get_total_transfer_size (ts : LayerInfo → Except HailoStatus Nat)
    (m : CoreOpMetadata) : Except HailoStatus Nat :=
  m.dynamic_contexts.foldlM
    (fun total c => (get_context_transfer_size ts c).map (fun s => total + s)) 0

/-- Spec-side: all edge layers of a context, the six lists concatenated in
the order the C++ code evaluates them. -/
def context_edge_layers (c : ContextMetadata) : List LayerInfo :=
  c.boundary_input_layers ++ c.boundary_output_layers ++
  c.ddr_input_layers ++ c.ddr_output_layers ++
  c.inter_context_input_layers ++ c.inter_context_output_layers

/-- Spec-side: the flattened sum of all config-buffer byte sizes of a
context. -/
def context_config_total (c : ContextMetadata) : Nat :=
  (c.config_buffers_info.map (fun kv => kv.2.sum)).sum

/-- Spec-side sequencing of a fallible function over a list: succeeds with
all results, in order, exactly when every application succeeds, and
otherwise propagates the first failure. -/
def spec_apply_each (f : α → Except HailoStatus β) :
    List α → Except HailoStatus (List β)
  | [] => .ok []
  | x :: xs => do
    let y ← f x
    let ys ← spec_apply_each f xs
    pure (y :: ys)

/-- Modelled from the spec: `LayerInfoUtils::vstream_info_already_in_vector`
(declared outside the analysed source file) tests whether a descriptor with
the given name is already in the accumulated vector. -/
def vstream_info_already_in_vector (res : List VStreamInfo) (name : String) :
    Bool :=
  res.any (fun v => v.name == name)

/-- Embedding of `CoreOpMetadata::convert_layer_infos_to_vstream_infos`:
convert each layer through the external conversion function `conv` and push
each resulting descriptor unless one with the same name was already
pushed. -/
def convert_layer_infos_to_vstream_infos (conv : LayerInfo → List VStreamInfo)
    (layer_infos : List LayerInfo) : List VStreamInfo :=
  layer_infos.foldl (fun res l =>
    (conv l).foldl (fun res v =>
      if vstream_info_already_in_vector res v.name then res else res ++ [v])
      res) []

/-- Spec-side deduplication, following the spec's words: keep only the first
occurrence of each name. -/
def spec_dedup_by_name : List VStreamInfo → List VStreamInfo
  | [] => []
  | v :: rest =>
    v :: spec_dedup_by_name (rest.filter (fun w => !(w.name == v.name)))
termination_by l => l.length
decreasing_by
  simpa using Nat.lt_succ_of_le (List.length_filter_le _ rest)

/-- The position of a descriptor's name within `sorted_output_names`
(`std::find` in the comparator of `get_output_vstream_infos`). -/
def output_name_index (names : List String) (v : VStreamInfo) : Option Nat :=
  names.findIdx? (fun s => s == v.name)

/-- The comparator captured by `get_output_vstream_infos`: first component is
the boolean comparison result, second is whether this invocation latched the
`HAILO_INTERNAL_FAILURE` side-channel status (a name missing from
`sorted_output_names`). -/
def vstream_cmp (names : List String) (info1 info2 : VStreamInfo) :
    Bool × Bool :=
  match output_name_index names info1, output_name_index names info2 with
  | none, _ => (false, true)
  | some _, none => (false, true)
  | some i, some j => (decide (i < j), false)

/-- One insertion step of the comparison sort, threading the latched failure
flag through every comparator invocation. -/
def insert_cmp (cmp : α → α → Bool × Bool) (a : α) :
    List α → List α × Bool
  | [] => ([a], false)
  | b :: l =>
    let c := cmp a b
    if c.1 then (a :: b :: l, c.2)
    else
      let r := insert_cmp cmp a l
      (b :: r.1, c.2 || r.2)

/-- Model of `std::sort` with a flag-latching comparator, as an insertion
sort (the comparison sort libstdc++ uses on small ranges): returns the
sorted list together with whether any invoked comparison latched the
failure flag.  A list of length at most one is returned unchanged with the
flag clear, because no comparison is ever invoked on it. -/
def sort_cmp (cmp : α → α → Bool × Bool) : List α → List α × Bool
  | [] => ([], false)
  | a :: l =>
    let r := sort_cmp cmp l
    let r2 := insert_cmp cmp a r.1
    (r2.1, r.2 || r2.2)

/-- Embedding of `CoreOpMetadata::get_output_vstream_infos`: the
`hailo_net_flow` bypass, otherwise derive from the network-filtered output
layers, convert, sort with the flag-latching comparator over
`sorted_output_names`, and fail `INTERNAL_FAILURE` when the flag was
latched. -/
def get_output_vstream_infos (conv : LayerInfo → List VStreamInfo)
    (dflt : String) (m : CoreOpMetadata) (network_name : String) :
    Except HailoStatus (List VStreamInfo) :=
  if m.supported_features.hailo_net_flow then .ok m.output_vstreams_infos
  else
    match get_output_layer_infos_of_network dflt m network_name with
    | .error e => .error e
    | .ok output_layer_infos =>
      let res := convert_layer_infos_to_vstream_infos conv output_layer_infos
      let sorted := sort_cmp (vstream_cmp m.sorted_output_names) res
      if sorted.2 then .error .INTERNAL_FAILURE else .ok sorted.1

/-- The key a present descriptor sorts by: its index in
`sorted_output_names` (the fallback value is never reached for present
names). -/
def ikey (names : List String) (v : VStreamInfo) : Nat :=
  (output_name_index names v).getD names.length

/-- The loop of `CoreOpMetadata::get_vstream_names_from_stream_name` over
all layer infos.  The access `fused_nms_layer[0]` is modelled totally: a
`none` result means the C++ code would index an empty vector. -/
def vstream_names_lookup :
    List LayerInfo → String → Option (Except HailoStatus (List String))
  | [], _ => some (.error .NOT_FOUND)
  | l :: rest, stream_name =>
    if stream_name == l.name then
      if l.is_defused_nms then
        match l.fused_nms_layer.head? with
        | some f => some (.ok [f.name])
        | none => none
      else if l.is_mux then some (.ok (get_demuxes_names l))
      else some (.ok [l.name])
    else vstream_names_lookup rest stream_name

/-- Embedding of `CoreOpMetadata::get_vstream_names_from_stream_name`. -/
def get_vstream_names_from_stream_name (m : CoreOpMetadata)
    (stream_name : String) : Option (Except HailoStatus (List String)) :=
  vstream_names_lookup (get_all_layer_infos m) stream_name

/-- The loop of `CoreOpMetadata::get_stream_names_from_vstream_name`: each
layer contributes its own name according to the branch the C++ code takes
(mux, defused NMS, net-flow device-to-host, exact match); `none` means the
defused branch would index an empty `fused_nms_layer`. -/
def stream_names_collect (netflow : Bool) (vstream_name : String) :
    List LayerInfo → Option (List String)
  | [] => some []
  | l :: rest =>
    let contribution : Option (List String) :=
      if l.is_mux then
        some (if is_edge_under_mux l vstream_name then [l.name] else [])
      else if l.is_defused_nms then
        match l.fused_nms_layer.head? with
        | some f => some (if vstream_name == f.name then [l.name] else [])
        | none => none
      else if netflow && (l.direction == StreamDirection.D2H) then
        some [l.name]
      else
        some (if vstream_name == l.name then [l.name] else [])
    match contribution, stream_names_collect netflow vstream_name rest with
    | some c, some cs => some (c ++ cs)
    | _, _ => none

/-- Embedding of `CoreOpMetadata::get_stream_names_from_vstream_name`:
collect the contributions over all layer infos, then fail `NOT_FOUND`
exactly when the collected list is empty. -/
def get_stream_names_from_vstream_name (m : CoreOpMetadata)
    (vstream_name : String) : Option (Except HailoStatus (List String)) :=
  (stream_names_collect m.supported_features.hailo_net_flow vstream_name
      (get_all_layer_infos m)).map
    (fun results => if 0 < results.length then .ok results
                    else .error .NOT_FOUND)

/-- Spec-side contribution rule of the stream-name query, with the net-flow
clause explicitly scoped to non-mux, non-defused layers. -/
def spec_stream_name_contribution (netflow : Bool) (vstream_name : String)
    (l : LayerInfo) : Bool :=
  if l.is_mux then is_edge_under_mux l vstream_name
  else if l.is_defused_nms then
    (match l.fused_nms_layer.head? with
     | some f => vstream_name == f.name
     | none => false)
  else if netflow && (l.direction == StreamDirection.D2H) then true
  else vstream_name == l.name

/-- Modelled from the spec: the reserved sentinel bitmap value
(`PARTIAL_CLUSTERS_LAYOUT_IGNORE`, defined outside the analysed source
file), meaning the caller does not care which layout variant is
returned. -/
def CLUSTERS_LAYOUT_IGNORE : Nat := 4294967295

/-- Insert-or-assign on a key-sorted association list: the model of
`std::map::operator[]=`, which keeps entries ordered by key. -/
def map_assign : List (Nat × α) → Nat → α → List (Nat × α)
  | [], k, v => [(k, v)]
  | (k1, v1) :: rest, k, v =>
    if k < k1 then (k, v) :: (k1, v1) :: rest
    else if k = k1 then (k, v) :: rest
    else (k1, v1) :: map_assign rest k v

/-- Exact-key lookup on the association list, the model of
`contains` + `std::map::operator[]`. -/
def map_find : List (Nat × α) → Nat → Option α
  | [], _ => none
  | (k1, v1) :: rest, k => if k = k1 then some v1 else map_find rest k

/-- Outcome of `CoreOpMetadataPerArch::get_metadata`:
`assertion_violated` models reaching `assert(0 != size)` on an empty map
(debug abort, undefined behavior in a release build) rather than a returned
error. -/
inductive MetadataLookup (α : Type) : Type where
  | found (m : α)
  | failure (s : HailoStatus)
  | assertion_violated
deriving DecidableEq, Repr

/-- Embedding of `CoreOpMetadataPerArch::get_metadata`: the sentinel is
checked first and yields `begin()->second` — the entry with the smallest
key, since `std::map` iterates in key order; otherwise an exact-match
lookup that fails `INTERNAL_FAILURE` when absent. -/
def get_metadata (map : List (Nat × α)) (clusters_layout_bitmap : Nat) :
    MetadataLookup α :=
  if clusters_layout_bitmap = CLUSTERS_LAYOUT_IGNORE then
    match map with
    | [] => .assertion_violated
    | (_, v) :: _ => .found v
  else
    match map_find map clusters_layout_bitmap with
    | some v => .found v
    | none => .failure .INTERNAL_FAILURE

/-- Embedding of `CoreOpMetadataPerArch::add_metadata`. -/
def add_metadata (map : List (Nat × α)) (metadata : α)
    (clusters_layout_bitmap : Nat) : List (Nat × α) :=
  map_assign map clusters_layout_bitmap metadata

/-- Whether an association list is strictly sorted by key: the
representation invariant of the `std::map` model, preserved by
`add_metadata`. -/
def keys_sorted : List (Nat × α) → Bool
  | [] => true
  | [_] => true
  | (k1, _) :: (k2, v2) :: rest =>
    decide (k1 < k2) && keys_sorted ((k2, v2) :: rest)

/-- A context with no layers and no config buffers, used by the concrete
examples below. -/
def empty_context : ContextMetadata :=
  ⟨[], [], [], [], [], [], []⟩

/-- A conversion function yielding one descriptor per layer, named after the
layer. -/
def conv_single : LayerInfo → List VStreamInfo :=
  fun l => [⟨l.name, 0⟩]

/-- A single boundary output leaf layer named `x`. -/
def layer_x : LayerInfo := .mk "x" .D2H "" false [] false []

/-- Metadata whose only derived output vstream is named `x`, while
`sorted_output_names` is `[y]`: the name `x` is absent from the canonical
order. -/
def m_c1 : CoreOpMetadata :=
  ⟨"op", empty_context,
   [{ empty_context with boundary_output_layers := [layer_x] }],
   ["y"], ⟨false⟩, [], []⟩

/-- Boundary output leaf layer named `a`. -/
def layer_a : LayerInfo := .mk "a" .D2H "" false [] false []

/-- Boundary output leaf layer named `b`. -/
def layer_b : LayerInfo := .mk "b" .D2H "" false [] false []

/-- Metadata with two output layers `a`, `b` and canonical output order
`[b, a]`. -/
def m_c1w : CoreOpMetadata :=
  ⟨"op", empty_context,
   [{ empty_context with boundary_output_layers := [layer_a, layer_b] }],
   ["b", "a"], ⟨false⟩, [], []⟩

/-- Per-arch map built by inserting metadata `1` under bitmap `7` first and
metadata `2` under bitmap `3` second. -/
def arch_map_c2 : List (Nat × Nat) :=
  add_metadata (add_metadata [] 1 7) 2 3

/-- A device-to-host mux layer named `m` over the single leaf `a`. -/
def layer_mux_m : LayerInfo :=
  .mk "m" .D2H "" true [.mk "a" .D2H "" false [] false []] false []

/-- Net-flow metadata whose only layer is the device-to-host mux `m`. -/
def m_c3 : CoreOpMetadata :=
  ⟨"op", empty_context,
   [{ empty_context with boundary_output_layers := [layer_mux_m] }],
   [], ⟨true⟩, [], []⟩

/-- Net-flow metadata with one host-to-device input `in1` and one plain
device-to-host output `out1`. -/
def m_c3w : CoreOpMetadata :=
  ⟨"op", empty_context,
   [{ empty_context with
      boundary_input_layers := [.mk "in1" .H2D "" false [] false []],
      boundary_output_layers := [.mk "out1" .D2H "" false [] false []] }],
   [], ⟨true⟩, [], []⟩

/-- The spec's end-to-end example tree: a mux `m` over the leaf `a` and the
mux `b` over the leaf `c`. -/
def layer_tree_m : LayerInfo :=
  .mk "m" .D2H "" true
    [.mk "a" .D2H "" false [] false [],
     .mk "b" .D2H "" true [.mk "c" .D2H "" false [] false []] false []]
    false []

/-- The fused-layer descriptor two defused NMS fragments point at. -/
def fused_layer : LayerInfo := .mk "fused" .D2H "" false [] false []

/-- First defused NMS fragment of `fused`. -/
def frag1 : LayerInfo := .mk "frag1" .D2H "" false [] true [fused_layer]

/-- Second defused NMS fragment of `fused`. -/
def frag2 : LayerInfo := .mk "frag2" .D2H "" false [] true [fused_layer]

/-- A conversion function mapping every defused fragment to one descriptor
carrying the fused name. -/
def conv_fused : LayerInfo → List VStreamInfo :=
  fun l => if l.is_defused_nms then [⟨"fused", 7⟩] else [⟨l.name, 0⟩]

/-- Metadata holding the two defused NMS fragments of `fused` (each with a
non-empty `fused_nms_layer`). -/
def m_c10 : CoreOpMetadata :=
  ⟨"op", empty_context,
   [{ empty_context with boundary_output_layers := [frag1, frag2] }],
   [], ⟨false⟩, [], []⟩

/-- Induction over a `LayerInfo` tree: to prove a property of every layer it
suffices to prove it for a node assuming it for every predecessor. -/
theorem layer_induction {motive : LayerInfo → Prop}
    (h : ∀ n d nn mux preds defd fl,
      (∀ p ∈ preds, motive p) → motive (.mk n d nn mux preds defd fl)) :
    ∀ L, motive L
  | .mk n d nn mux preds defd fl =>
    h n d nn mux preds defd fl (fun p hp => layer_induction h p)
termination_by L => sizeOf L
decreasing_by
  have hlt := List.sizeOf_lt_of_mem hp
  simp only [LayerInfo.mk.sizeOf_spec]
  omega

/-- The demux loop is the flattened map of `get_demuxes_names` over the
predecessor list. -/
theorem demux_names_list_eq (ps : List LayerInfo) :
    demux_names_list ps = (ps.map get_demuxes_names).flatten := by
  induction ps with
  | nil => rfl
  | cons p ps ih => simp [demux_names_list, ih]

/-- The edge-under-mux loop with a `true` parent flag is an existential test
of the recursive call over the predecessor list. -/
theorem edge_under_mux_loop_true_eq (ps : List LayerInfo) (e : String) :
    edge_under_mux_loop true ps e
      = ps.any (fun p => is_edge_under_mux p e) := by
  induction ps with
  | nil => rfl
  | cons p ps ih =>
    simp only [edge_under_mux_loop, if_true, List.any_cons, ih]
    cases is_edge_under_mux p e <;> simp

/-- On a non-mux layer, `is_edge_under_mux` is the direct name
comparison. -/
theorem is_edge_under_mux_of_not_mux (p : LayerInfo) (e : String)
    (h : p.is_mux = false) : is_edge_under_mux p e = (e == p.name) := by
  cases p with
  | mk n d nn mux preds defd fl =>
    simp only [LayerInfo.is_mux] at h
    subst h
    simp [is_edge_under_mux, LayerInfo.name]

/-- C6: for every `LayerInfo` (the predecessor tree of the inductive
embedding is finite by construction, and no well-formedness assumption is
needed), `is_edge_under_mux L name` returns `true` exactly when `name` is an
element of `get_demuxes_names L`. -/
theorem is_edge_under_mux_iff_mem_demuxes (L : LayerInfo) (name : String) :
    is_edge_under_mux L name = true ↔ name ∈ get_demuxes_names L := by
  induction L using layer_induction with
  | h n d nn mux preds defd fl ih =>
    cases mux with
    | false =>
      simp [is_edge_under_mux, get_demuxes_names]
    | true =>
      simp only [is_edge_under_mux, get_demuxes_names, Bool.not_true,
        Bool.false_eq_true, if_false, if_true]
      rw [edge_under_mux_loop_true_eq, demux_names_list_eq]
      simp only [List.any_eq_true, List.mem_flatten, List.mem_map]
      constructor
      · rintro ⟨p, hp, hedge⟩
        exact ⟨get_demuxes_names p, ⟨p, hp, rfl⟩, (ih p hp).mp hedge⟩
      · rintro ⟨l, ⟨p, hp, rfl⟩, hmem⟩
        exact ⟨p, hp, (ih p hp).mpr hmem⟩

/-- The spec-side leaf loop is the flattened map of `spec_leaf_layers`. -/
theorem spec_leaf_layers_list_eq (ps : List LayerInfo) :
    spec_leaf_layers_list ps = (ps.map spec_leaf_layers).flatten := by
  induction ps with
  | nil => rfl
  | cons p ps ih => simp [spec_leaf_layers_list, ih]

/-- C7: `get_demuxes_names` enumerates exactly the names of the non-mux
leaves reachable from the layer in depth-first predecessor order: it is the
name image of the spec-side leaf enumeration (hence has the same length),
is the singleton own name on a non-mux layer, and on a mux layer is the
in-order concatenation of the predecessors' demux-name sequences. -/
theorem get_demuxes_names_spec (L : LayerInfo) :
    get_demuxes_names L = (spec_leaf_layers L).map LayerInfo.name
    ∧ (get_demuxes_names L).length = (spec_leaf_layers L).length
    ∧ (L.is_mux = false → get_demuxes_names L = [L.name])
    ∧ (L.is_mux = true →
        get_demuxes_names L
          = (L.predecessor.map get_demuxes_names).flatten) := by
  induction L using layer_induction with
  | h n d nn mux preds defd fl ih =>
    have hmain : get_demuxes_names (.mk n d nn mux preds defd fl)
        = (spec_leaf_layers (.mk n d nn mux preds defd fl)).map
            LayerInfo.name := by
      cases mux with
      | false => simp [get_demuxes_names, spec_leaf_layers, LayerInfo.name]
      | true =>
        simp only [get_demuxes_names, spec_leaf_layers, if_true]
        rw [demux_names_list_eq, spec_leaf_layers_list_eq, List.map_flatten,
          List.map_map]
        congr 1
        apply List.map_congr_left
        intro p hp
        exact (ih p hp).1
    refine ⟨hmain, by rw [hmain, List.length_map], ?_, ?_⟩
    · intro hmux
      simp only [LayerInfo.is_mux] at hmux
      subst hmux
      simp [get_demuxes_names, LayerInfo.name]
    · intro hmux
      simp only [LayerInfo.is_mux] at hmux
      subst hmux
      simp only [get_demuxes_names, if_true, LayerInfo.predecessor]
      exact demux_names_list_eq preds

/-- C7 witness: the spec's end-to-end example tree is a mux and its demux
names are `[a, c]`, the concatenation of its predecessors' sequences. -/
theorem get_demuxes_names_spec_witness :
    layer_tree_m.is_mux = true
    ∧ get_demuxes_names layer_tree_m
        = (layer_tree_m.predecessor.map get_demuxes_names).flatten
    ∧ get_demuxes_names layer_tree_m = ["a", "c"] :=
  ⟨rfl, (get_demuxes_names_spec layer_tree_m).2.2.2 rfl, by decide⟩

/-- The simplified edge loop agrees with the C++ loop (with its redundant
parent re-test) whenever the recursive calls agree on every predecessor. -/
theorem edge_loops_agree (ps : List LayerInfo) (e : String)
    (ih : ∀ p ∈ ps, is_edge_under_mux p e = is_edge_under_mux_simplified p e) :
    edge_under_mux_loop true ps e = simplified_edge_loop ps e := by
  induction ps with
  | nil => rfl
  | cons p ps ihl =>
    have hp := ih p (List.mem_cons_self p ps)
    have hrest := ihl (fun q hq => ih q (List.mem_cons_of_mem p hq))
    simp only [edge_under_mux_loop, if_true, simplified_edge_loop, ← hrest]
    cases hm : p.is_mux with
    | true =>
      simp only [if_true, ← hp]
      cases is_edge_under_mux p e <;> simp
    | false =>
      simp only [hm, Bool.false_eq_true, if_false,
        ← is_edge_under_mux_of_not_mux p e hm]
      cases is_edge_under_mux p e <;> simp

/-- C9: the implemented `is_edge_under_mux` (whose mux branch re-tests the
parent's `is_mux` inside the loop) and the simplified variant (recurse on a
mux predecessor, otherwise compare the name) are extensionally equal. -/
theorem is_edge_under_mux_eq_simplified (L : LayerInfo) (e : String) :
    is_edge_under_mux L e = is_edge_under_mux_simplified L e := by
  induction L using layer_induction with
  | h n d nn mux preds defd fl ih =>
    cases mux with
    | false => rfl
    | true =>
      simp only [is_edge_under_mux, is_edge_under_mux_simplified,
        Bool.not_true, Bool.false_eq_true, if_false]
      exact edge_loops_agree preds e ih

/-- A push-accumulating left fold is an append. -/
theorem foldl_push_eq (xs : List α) (acc : List α) :
    xs.foldl (fun res l => res ++ [l]) acc = acc ++ xs := by
  induction xs generalizing acc with
  | nil => simp
  | cons x xs ih => simp [ih]

/-- A conditionally push-accumulating left fold is an appended filter. -/
theorem foldl_push_filter_eq (p : α → Bool) (xs : List α) (acc : List α) :
    xs.foldl (fun res l => if p l then res ++ [l] else res) acc
      = acc ++ xs.filter p := by
  induction xs generalizing acc with
  | nil => simp
  | cons x xs ih =>
    cases h : p x <;> simp [List.filter_cons, h, ih]

/-- A left fold appending chunks is the flattened map. -/
theorem foldl_append_eq (f : α → List β) (cs : List α) (acc : List β) :
    cs.foldl (fun res c => res ++ f c) acc = acc ++ (cs.map f).flatten := by
  induction cs generalizing acc with
  | nil => simp
  | cons c cs ih => simp [ih]

/-- A filter distributes over a flattened list of lists. -/
theorem filter_flatten_eq (p : α → Bool) (ls : List (List α)) :
    ls.flatten.filter p = (ls.map (List.filter p)).flatten := by
  induction ls with
  | nil => rfl
  | cons l ls ih => simp [List.filter_append, ih]

/-- The nested per-context push loop of the unfiltered layer queries is the
flattened per-context map. -/
theorem foldl_ctx_push_eq (f : ContextMetadata → List LayerInfo)
    (cs : List ContextMetadata) (acc : List LayerInfo) :
    cs.foldl (fun res c => (f c).foldl (fun res l => res ++ [l]) res) acc
      = acc ++ (cs.map f).flatten := by
  simp only [foldl_push_eq]
  exact foldl_append_eq f cs acc

/-- The nested per-context conditional push loop of the filtered layer
queries is the filtered flattened per-context map. -/
theorem foldl_ctx_push_filter_eq (f : ContextMetadata → List LayerInfo)
    (p : LayerInfo → Bool) (cs : List ContextMetadata)
    (acc : List LayerInfo) :
    cs.foldl (fun res c =>
        (f c).foldl (fun res l => if p l then res ++ [l] else res) res) acc
      = acc ++ ((cs.map f).flatten).filter p := by
  simp only [foldl_push_filter_eq]
  rw [filter_flatten_eq, List.map_map]
  exact foldl_append_eq (fun c => (f c).filter p) cs acc

/-- The unfiltered input query flattens the boundary input layers of the
dynamic contexts in order. -/
theorem get_input_layer_infos_eq (m : CoreOpMetadata) :
    get_input_layer_infos m
      = (m.dynamic_contexts.map ContextMetadata.boundary_input_layers).flatten := by
  simpa using foldl_ctx_push_eq ContextMetadata.boundary_input_layers
    m.dynamic_contexts []

/-- The unfiltered output query flattens the boundary output layers of the
dynamic contexts in order. -/
theorem get_output_layer_infos_eq (m : CoreOpMetadata) :
    get_output_layer_infos m
      = (m.dynamic_contexts.map ContextMetadata.boundary_output_layers).flatten := by
  simpa using foldl_ctx_push_eq ContextMetadata.boundary_output_layers
    m.dynamic_contexts []

/-- The filtered input query is the length-guarded spec-side filter. -/
theorem get_input_layer_infos_of_network_eq (dflt : String)
    (m : CoreOpMetadata) (network_name : String) :
    get_input_layer_infos_of_network dflt m network_name
      = (if 0 < (spec_filtered_input_layers dflt m network_name).length
         then .ok (spec_filtered_input_layers dflt m network_name)
         else .error .NOT_FOUND) := by
  simp only [get_input_layer_infos_of_network, spec_filtered_input_layers,
    foldl_ctx_push_filter_eq, List.nil_append]

/-- The filtered output query is the length-guarded spec-side filter. -/
theorem get_output_layer_infos_of_network_eq (dflt : String)
    (m : CoreOpMetadata) (network_name : String) :
    get_output_layer_infos_of_network dflt m network_name
      = (if 0 < (spec_filtered_output_layers dflt m network_name).length
         then .ok (spec_filtered_output_layers dflt m network_name)
         else .error .NOT_FOUND) := by
  simp only [get_output_layer_infos_of_network, spec_filtered_output_layers,
    foldl_ctx_push_filter_eq, List.nil_append]

/-- C5: the network-filtered input and output layer queries return exactly
the boundary layers of the respective direction, scanned over the dynamic
contexts in order, that match the requested name (equality with the layer's
network name, or an empty request, or the default-network name), and fail
`NOT_FOUND` exactly when that filtered list is empty. -/
theorem filtered_layer_infos_spec (dflt : String) (m : CoreOpMetadata)
    (network_name : String) :
    get_input_layer_infos_of_network dflt m network_name
      = (if (spec_filtered_input_layers dflt m network_name).isEmpty
         then .error .NOT_FOUND
         else .ok (spec_filtered_input_layers dflt m network_name))
    ∧ get_output_layer_infos_of_network dflt m network_name
      = (if (spec_filtered_output_layers dflt m network_name).isEmpty
         then .error .NOT_FOUND
         else .ok (spec_filtered_output_layers dflt m network_name)) := by
  constructor
  · rw [get_input_layer_infos_of_network_eq]
    rcases h : spec_filtered_input_layers dflt m network_name
      with _ | ⟨l, ls⟩ <;> simp [h]
  · rw [get_output_layer_infos_of_network_eq]
    rcases h : spec_filtered_output_layers dflt m network_name
      with _ | ⟨l, ls⟩ <;> simp [h]

/-- The additive `foldlM` loop of the transfer-size computations is the
spec-side sequencing followed by a sum. -/
theorem foldlM_add_eq_spec_apply (f : α → Except HailoStatus Nat)
    (l : List α) (acc : Nat) :
    l.foldlM (fun total x => (f x).map (fun s => total + s)) acc
      = (spec_apply_each f l).map (fun sizes => acc + sizes.sum) := by
  induction l generalizing acc with
  | nil => rfl
  | cons x xs ih =>
    simp only [List.foldlM, spec_apply_each]
    cases hx : f x with
    | error e => rfl
    | ok v =>
      show xs.foldlM _ (acc + v) = _
      rw [ih]
      cases hxs : spec_apply_each f xs with
      | error e => rfl
      | ok ys =>
        show Except.ok (acc + v + ys.sum) = Except.ok (acc + (v + ys.sum))
        rw [Nat.add_assoc]

/-- `get_layers_transfer_size` sums the per-layer sizes, propagating the
first per-layer failure. -/
theorem get_layers_transfer_size_eq (ts : LayerInfo → Except HailoStatus Nat)
    (l : List LayerInfo) :
    get_layers_transfer_size ts l = (spec_apply_each ts l).map List.sum := by
  rw [get_layers_transfer_size, foldlM_add_eq_spec_apply]
  cases spec_apply_each ts l <;> simp

/-- Spec-side sequencing splits over an append. -/
theorem spec_apply_each_append (f : α → Except HailoStatus β)
    (l1 l2 : List α) :
    spec_apply_each f (l1 ++ l2)
      = (spec_apply_each f l1) >>= (fun ys =>
          (spec_apply_each f l2).map (fun zs => ys ++ zs)) := by
  induction l1 with
  | nil =>
    show spec_apply_each f l2 = _
    cases h : spec_apply_each f l2 <;> rfl
  | cons x xs ih =>
    simp only [List.cons_append, spec_apply_each]
    cases hx : f x with
    | error e => rfl
    | ok v =>
      show (spec_apply_each f (xs ++ l2) >>= _) = _
      rw [ih]
      cases hxs : spec_apply_each f xs with
      | error e => rfl
      | ok ys =>
        cases hl2 : spec_apply_each f l2 <;> rfl

/-- `Except.map` on an error. -/
theorem emap_error (f : α → β) (e : HailoStatus) :
    (Except.error e : Except HailoStatus α).map f = .error e := rfl

/-- `Except.map` on a success. -/
theorem emap_ok (f : α → β) (a : α) :
    (Except.ok a : Except HailoStatus α).map f = .ok (f a) := rfl

/-- Bind of an error. -/
theorem ebind_error (k : α → Except HailoStatus β) (e : HailoStatus) :
    ((Except.error e : Except HailoStatus α) >>= k) = .error e := rfl

/-- Bind of a success. -/
theorem ebind_ok (k : α → Except HailoStatus β) (a : α) :
    ((Except.ok a : Except HailoStatus α) >>= k) = k a := rfl

/-- `pure` in the `Except` monad is `ok`. -/
theorem epure_eq (a : α) : (pure a : Except HailoStatus α) = .ok a := rfl

/-- An additive left fold over `Nat` is the sum. -/
theorem foldl_add_sum (l : List Nat) (a : Nat) :
    l.foldl (· + ·) a = a + l.sum := by
  induction l generalizing a with
  | nil => simp
  | cons x xs ih => simp [ih, Nat.add_assoc]

/-- The config-buffer accumulation loop is the flattened sum. -/
theorem foldl_config_sum (l : List (Nat × List Nat)) (a : Nat) :
    l.foldl (fun acc kv => acc + kv.2.foldl (· + ·) 0) a
      = a + (l.map (fun kv => kv.2.sum)).sum := by
  induction l generalizing a with
  | nil => simp
  | cons kv rest ih =>
    simp only [List.foldl_cons]
    rw [foldl_add_sum, ih]
    simp only [List.map_cons, List.sum_cons]
    omega

/-- `get_context_transfer_size` is the flattened config-buffer sum plus the
sequenced per-layer sizes of the six edge-layer lists: any per-layer failure
is propagated. -/
theorem get_context_transfer_size_eq (ts : LayerInfo → Except HailoStatus Nat)
    (c : ContextMetadata) :
    get_context_transfer_size ts c
      = (spec_apply_each ts (context_edge_layers c)).map
          (fun sizes => context_config_total c + sizes.sum) := by
  simp only [get_context_transfer_size, get_layers_transfer_size_eq,
    context_edge_layers, spec_apply_each_append]
  rcases h1 : spec_apply_each ts c.boundary_input_layers with e | abi <;>
    simp only [h1, emap_error, emap_ok, ebind_error, ebind_ok]
  rcases h2 : spec_apply_each ts c.boundary_output_layers with e | abo <;>
    simp only [h2, emap_error, emap_ok, ebind_error, ebind_ok]
  rcases h3 : spec_apply_each ts c.ddr_input_layers with e | adi <;>
    simp only [h3, emap_error, emap_ok, ebind_error, ebind_ok]
  rcases h4 : spec_apply_each ts c.ddr_output_layers with e | ado <;>
    simp only [h4, emap_error, emap_ok, ebind_error, ebind_ok]
  rcases h5 : spec_apply_each ts c.inter_context_input_layers with e | aii <;>
    simp only [h5, emap_error, emap_ok, ebind_error, ebind_ok]
  rcases h6 : spec_apply_each ts c.inter_context_output_layers with e | aio <;>
    simp only [h6, emap_error, emap_ok, ebind_error, ebind_ok]
  simp only [foldl_config_sum, Nat.zero_add, context_config_total,
    List.sum_append, epure_eq, Except.ok.injEq]

/-- C4: the total transfer size is the sum of the per-context transfer sizes
over the dynamic contexts only (any per-context failure is propagated);
each context's transfer size is the flattened config-buffer sum plus the
external per-layer sizes sequenced over all six edge-layer lists (any
per-layer failure is propagated); and the preliminary context never
contributes. -/
theorem total_transfer_size_spec (ts : LayerInfo → Except HailoStatus Nat)
    (m : CoreOpMetadata) :
    get_total_transfer_size ts m
      = (spec_apply_each (get_context_transfer_size ts)
          m.dynamic_contexts).map List.sum
    ∧ (∀ c, get_context_transfer_size ts c
        = (spec_apply_each ts (context_edge_layers c)).map
            (fun sizes => context_config_total c + sizes.sum))
    ∧ (∀ p, get_total_transfer_size ts { m with preliminary_context := p }
        = get_total_transfer_size ts m) := by
  refine ⟨?_, fun c => get_context_transfer_size_eq ts c, fun p => rfl⟩
  rw [get_total_transfer_size, foldlM_add_eq_spec_apply]
  cases spec_apply_each (get_context_transfer_size ts) m.dynamic_contexts <;>
    simp

/-- A nested fold over chunks is the fold over the flattened chunks. -/
theorem foldl_foldl_flatten (g : β → α → β) (f : γ → List α) (ls : List γ)
    (acc : β) :
    ls.foldl (fun b c => (f c).foldl g b) acc
      = ((ls.map f).flatten).foldl g acc := by
  induction ls generalizing acc with
  | nil => rfl
  | cons c cs ih => simp [ih, List.foldl_append]

/-- String equality tests commute. -/
theorem string_beq_comm (s t : String) : (s == t) = (t == s) := by
  by_cases h : s = t
  · subst h; rfl
  · have h1 : (s == t) = false := beq_eq_false_iff_ne.mpr h
    have h2 : (t == s) = false := beq_eq_false_iff_ne.mpr (fun e => h e.symm)
    rw [h1, h2]

/-- The membership test over an appended accumulator splits into a
disjunction. -/
theorem already_in_append (res : List VStreamInfo) (v : VStreamInfo)
    (s : String) :
    vstream_info_already_in_vector (res ++ [v]) s
      = (vstream_info_already_in_vector res s || (s == v.name)) := by
  simp [vstream_info_already_in_vector, string_beq_comm]

/-- The deduplicating push fold of the vstream conversion keeps the first
occurrence of each name not already present in the accumulator. -/
theorem dedup_fold_eq (vs : List VStreamInfo) (res : List VStreamInfo) :
    vs.foldl (fun res v =>
        if vstream_info_already_in_vector res v.name then res else res ++ [v])
      res
      = res ++ spec_dedup_by_name (vs.filter
          (fun v => !vstream_info_already_in_vector res v.name)) := by
  induction vs generalizing res with
  | nil => simp [spec_dedup_by_name]
  | cons v rest ih =>
    simp only [List.foldl_cons]
    cases hin : vstream_info_already_in_vector res v.name with
    | true =>
      simp only [if_true, List.filter_cons, hin, Bool.not_true,
        Bool.false_eq_true, if_false]
      exact ih res
    | false =>
      simp only [hin, Bool.false_eq_true, if_false, List.filter_cons,
        Bool.not_false, if_true]
      rw [ih (res ++ [v]), spec_dedup_by_name, List.append_assoc,
        List.filter_filter]
      have hfeq : List.filter
          (fun w => !vstream_info_already_in_vector (res ++ [v]) w.name) rest
          = List.filter (fun a => (!(a.name == v.name))
              && (!vstream_info_already_in_vector res a.name)) rest := by
        apply List.filter_congr
        intro w _
        rw [already_in_append]
        cases hw : vstream_info_already_in_vector res w.name <;> simp
      rw [hfeq]
      rfl

/-- C8: the vstream conversion deduplicates the concatenated per-layer
conversion results by name, keeping only the first occurrence of each name;
in particular, if every fragment of a non-empty input list converts to one
descriptor carrying the same fused name, the result has exactly one
descriptor with that name. -/
theorem convert_dedup_spec (conv : LayerInfo → List VStreamInfo)
    (layer_infos : List LayerInfo) :
    convert_layer_infos_to_vstream_infos conv layer_infos
      = spec_dedup_by_name ((layer_infos.map conv).flatten)
    ∧ ∀ f : String, layer_infos ≠ [] →
        (∀ l ∈ layer_infos, ∃ v, conv l = [v] ∧ v.name = f) →
        ((convert_layer_infos_to_vstream_infos conv layer_infos).filter
            (fun v => v.name == f)).length = 1 := by
  have hmain : convert_layer_infos_to_vstream_infos conv layer_infos
      = spec_dedup_by_name ((layer_infos.map conv).flatten) := by
    rw [convert_layer_infos_to_vstream_infos, foldl_foldl_flatten,
      dedup_fold_eq, List.nil_append]
    congr 1
    apply List.filter_eq_self.mpr
    intro v _
    rfl
  refine ⟨hmain, ?_⟩
  intro f hne hconv
  rcases layer_infos with _ | ⟨l, rest⟩
  · exact absurd rfl hne
  · rcases hconv l (List.mem_cons_self l rest) with ⟨v1, hv1, hname1⟩
    have hflat : (((l :: rest).map conv).flatten)
        = v1 :: ((rest.map conv).flatten) := by
      simp [hv1]
    have hrest_names : ∀ w ∈ (rest.map conv).flatten, w.name = f := by
      intro w hw
      rw [List.mem_flatten] at hw
      rcases hw with ⟨chunk, hchunk, hw⟩
      rw [List.mem_map] at hchunk
      rcases hchunk with ⟨l2, hl2, rfl⟩
      rcases hconv l2 (List.mem_cons_of_mem l hl2) with ⟨v2, hv2, hname2⟩
      rw [hv2, List.mem_singleton] at hw
      subst hw
      exact hname2
    have hfilter_nil : ((rest.map conv).flatten).filter
        (fun w => !(w.name == v1.name)) = [] := by
      rw [List.filter_eq_nil_iff]
      intro w hw
      rw [hrest_names w hw, hname1, beq_self_eq_true]
      simp
    have hresult : convert_layer_infos_to_vstream_infos conv (l :: rest)
        = [v1] := by
      rw [hmain, hflat, spec_dedup_by_name, hfilter_nil, spec_dedup_by_name]
    rw [hresult]
    simp [hname1]

/-- C8 witness: the two defused NMS fragments of `fused` convert to exactly
one descriptor carrying the fused name. -/
theorem convert_dedup_spec_witness :
    ((convert_layer_infos_to_vstream_infos conv_fused [frag1, frag2]).filter
        (fun v => v.name == "fused")).length = 1 :=
  (convert_dedup_spec conv_fused [frag1, frag2]).2 "fused"
    (List.cons_ne_nil _ _)
    (by
      intro l hl
      rcases List.mem_cons.mp hl with rfl | hl2
      · exact ⟨⟨"fused", 7⟩, rfl, rfl⟩
      · rcases List.mem_cons.mp hl2 with rfl | hl3
        · exact ⟨⟨"fused", 7⟩, rfl, rfl⟩
        · cases hl3)

/-- Under the fused-layer well-formedness precondition, the stream-name
collection loop never reaches the out-of-bounds access and computes the
name image of the contribution filter. -/
theorem stream_names_collect_eq (netflow : Bool) (v : String)
    (ls : List LayerInfo)
    (h : ∀ l ∈ ls, l.is_defused_nms = true →
      l.fused_nms_layer.isEmpty = false) :
    stream_names_collect netflow v ls
      = some ((ls.filter (spec_stream_name_contribution netflow v)).map
          LayerInfo.name) := by
  induction ls with
  | nil => rfl
  | cons l rest ih =>
    have hr := ih (fun x hx => h x (List.mem_cons_of_mem l hx))
    simp only [stream_names_collect, hr, List.filter_cons]
    cases hm : l.is_mux with
    | true =>
      simp only [spec_stream_name_contribution, hm, if_true]
      cases hedge : is_edge_under_mux l v <;> simp
    | false =>
      cases hd : l.is_defused_nms with
      | true =>
        have hne := h l (List.mem_cons_self l rest) hd
        rcases hfl : l.fused_nms_layer with _ | ⟨f, fs⟩
        · rw [hfl] at hne
          simp at hne
        · simp only [spec_stream_name_contribution, hm, Bool.false_eq_true,
            if_false, hd, if_true, hfl, List.head?_cons]
          cases hveq : v == f.name <;> simp
      | false =>
        cases hnf : netflow && (l.direction == StreamDirection.D2H) with
        | true =>
          simp only [spec_stream_name_contribution, hm, hd,
            Bool.false_eq_true, if_false, hnf, if_true]
          simp
        | false =>
          simp only [spec_stream_name_contribution, hm, hd,
            Bool.false_eq_true, if_false, hnf]
          cases hveq : v == l.name <;> simp

/-- Under the fused-layer well-formedness precondition, the vstream-name
lookup loop never reaches the out-of-bounds access. -/
theorem vstream_names_lookup_isSome (ls : List LayerInfo) (s : String)
    (h : ∀ l ∈ ls, l.is_defused_nms = true →
      l.fused_nms_layer.isEmpty = false) :
    (vstream_names_lookup ls s).isSome = true := by
  induction ls with
  | nil => rfl
  | cons l rest ih =>
    have hr := ih (fun x hx => h x (List.mem_cons_of_mem l hx))
    simp only [vstream_names_lookup]
    cases hname : s == l.name with
    | false => simpa using hr
    | true =>
      cases hd : l.is_defused_nms with
      | false => cases hmux : l.is_mux <;> simp [hd, hmux]
      | true =>
        have hne := h l (List.mem_cons_self l rest) hd
        rcases hfl : l.fused_nms_layer with _ | ⟨f, fs⟩
        · rw [hfl] at hne
          simp at hne
        · simp [hd, hfl]

/-- C3 counterexample: with `hailo_net_flow` set, the metadata `m_c3`
contains exactly one layer, the device-to-host mux `m`; yet querying the
vstream name `zzz` fails `NOT_FOUND` instead of returning `[m]`, so a mux
device-to-host layer does not contribute unconditionally. -/
theorem stream_names_netflow_counterexample :
    get_stream_names_from_vstream_name m_c3 "zzz" = some (.error .NOT_FOUND)
    ∧ m_c3.supported_features.hailo_net_flow = true
    ∧ get_all_layer_infos m_c3 = [layer_mux_m]
    ∧ layer_mux_m.direction = StreamDirection.D2H :=
  ⟨rfl, rfl, rfl, rfl⟩

/-- C3 (amended): under the fused-layer precondition the query returns the
names of the layers selected by the contribution rule and fails `NOT_FOUND`
exactly when that selection is empty; with `hailo_net_flow` set a
device-to-host layer that is neither mux nor defused NMS contributes
unconditionally, and with it unset such a layer contributes exactly on an
exact name match. -/
theorem stream_names_from_vstream_name_spec (m : CoreOpMetadata) (v : String)
    (hpre : ∀ l ∈ get_all_layer_infos m, l.is_defused_nms = true →
      l.fused_nms_layer.isEmpty = false) :
    get_stream_names_from_vstream_name m v
      = some (
          if (((get_all_layer_infos m).filter
              (spec_stream_name_contribution
                m.supported_features.hailo_net_flow v)).map
              LayerInfo.name).isEmpty
          then .error .NOT_FOUND
          else .ok (((get_all_layer_infos m).filter
              (spec_stream_name_contribution
                m.supported_features.hailo_net_flow v)).map LayerInfo.name))
    ∧ (∀ l : LayerInfo, l.is_mux = false → l.is_defused_nms = false →
        spec_stream_name_contribution true v l
          = ((l.direction == StreamDirection.D2H) || (v == l.name)))
    ∧ (∀ l : LayerInfo, l.is_mux = false → l.is_defused_nms = false →
        spec_stream_name_contribution false v l = (v == l.name)) := by
  refine ⟨?_, ?_, ?_⟩
  · rw [get_stream_names_from_vstream_name,
      stream_names_collect_eq _ _ _ hpre, Option.map_some']
    rcases hres : ((get_all_layer_infos m).filter
        (spec_stream_name_contribution
          m.supported_features.hailo_net_flow v)).map LayerInfo.name
      with _ | ⟨x, xs⟩ <;> simp [hres]
  · intro l h1 h2
    simp only [spec_stream_name_contribution, h1, Bool.false_eq_true,
      if_false, h2, Bool.true_and]
    cases hx : l.direction == StreamDirection.D2H <;> simp
  · intro l h1 h2
    simp [spec_stream_name_contribution, h1, h2]

/-- C3 witness: on concrete net-flow metadata with a plain device-to-host
output `out1`, querying an unrelated vstream name still returns `[out1]`. -/
theorem stream_names_from_vstream_name_spec_witness :
    get_stream_names_from_vstream_name m_c3w "nope" = some (.ok ["out1"]) := by
  rw [(stream_names_from_vstream_name_spec m_c3w "nope" (by decide)).1]
  rfl

/-- C10: under the precondition that every defused-NMS layer carries a
non-empty `fused_nms_layer`, both name-resolution queries are total: the
out-of-bounds branch of the modelled `fused_nms_layer[0]` access is never
reached, for every queried name. -/
theorem fused_nms_index_safe (m : CoreOpMetadata) (s v : String)
    (hpre : ∀ l ∈ get_all_layer_infos m, l.is_defused_nms = true →
      l.fused_nms_layer.isEmpty = false) :
    (get_vstream_names_from_stream_name m s).isSome = true
    ∧ (get_stream_names_from_vstream_name m v).isSome = true := by
  constructor
  · exact vstream_names_lookup_isSome _ _ hpre
  · rw [get_stream_names_from_vstream_name,
      stream_names_collect_eq _ _ _ hpre]
    rfl

/-- C10 witness: both queries are defined on metadata holding two defused
NMS fragments with non-empty fused-layer references. -/
theorem fused_nms_index_safe_witness :
    (get_vstream_names_from_stream_name m_c10 "frag1").isSome = true
    ∧ (get_stream_names_from_vstream_name m_c10 "fused").isSome = true :=
  fused_nms_index_safe m_c10 "frag1" "fused" (by decide)

/-- A descriptor's name index is defined exactly when the name occurs in the
canonical order. -/
theorem output_name_index_isSome_iff (ns : List String) (v : VStreamInfo) :
    (output_name_index ns v).isSome = true ↔ v.name ∈ ns := by
  rw [output_name_index]
  induction ns with
  | nil => simp [List.findIdx?]
  | cons a t ih =>
    rw [List.findIdx?_cons]
    by_cases h : a = v.name
    · subst h; simp
    · have hb : (a == v.name) = false := beq_eq_false_iff_ne.mpr h
      simp [hb, h, ih, Option.isSome_map]
      tauto

/-- The comparator latches the failure flag exactly when one of the two
names is absent from the canonical order. -/
theorem vstream_cmp_flag_eq (ns : List String) (a b : VStreamInfo) :
    (vstream_cmp ns a b).2
      = !((output_name_index ns a).isSome
          && (output_name_index ns b).isSome) := by
  rcases h1 : output_name_index ns a with _ | i <;>
    rcases h2 : output_name_index ns b with _ | j <;>
      simp [vstream_cmp, h1, h2]

/-- On two present names the comparator compares the indices and does not
latch the flag. -/
theorem vstream_cmp_present (ns : List String) (a b : VStreamInfo)
    (i j : Nat) (ha : output_name_index ns a = some i)
    (hb : output_name_index ns b = some j) :
    (vstream_cmp ns a b).1 = decide (i < j)
    ∧ (vstream_cmp ns a b).2 = false := by
  constructor <;> simp [vstream_cmp, ha, hb]

/-- Insertion produces a permutation of the element plus the old list. -/
theorem insert_cmp_perm (cmp : α → α → Bool × Bool) (a : α) (l : List α) :
    List.Perm (insert_cmp cmp a l).1 (a :: l) := by
  induction l with
  | nil => exact List.Perm.refl _
  | cons b t ih =>
    simp only [insert_cmp]
    cases hc : (cmp a b).1 with
    | true => simp
    | false =>
      simp only [Bool.false_eq_true, if_false]
      exact (ih.cons b).trans (List.Perm.swap a b t)

/-- The flag-threading sort permutes its input. -/
theorem sort_cmp_perm (cmp : α → α → Bool × Bool) (l : List α) :
    List.Perm (sort_cmp cmp l).1 l := by
  induction l with
  | nil => exact List.Perm.refl _
  | cons a t ih =>
    simp only [sort_cmp]
    exact (insert_cmp_perm cmp a (sort_cmp cmp t).1).trans (ih.cons a)

/-- Inserting a present element into a list of present elements never
latches the flag. -/
theorem insert_cmp_flag_false (ns : List String) (a : VStreamInfo)
    (l : List VStreamInfo)
    (ha : (output_name_index ns a).isSome = true)
    (hl : ∀ x ∈ l, (output_name_index ns x).isSome = true) :
    (insert_cmp (vstream_cmp ns) a l).2 = false := by
  induction l with
  | nil => rfl
  | cons b t ih =>
    have hb := hl b (List.mem_cons_self b t)
    have hflag : (vstream_cmp ns a b).2 = false := by
      rw [vstream_cmp_flag_eq, ha, hb]
      rfl
    simp only [insert_cmp]
    cases hc : (vstream_cmp ns a b).1 with
    | true => simp [hflag]
    | false =>
      simp [hflag, ih (fun x hx => hl x (List.mem_cons_of_mem b hx))]

/-- Sorting a list of present elements never latches the flag. -/
theorem sort_cmp_flag_false (ns : List String) (l : List VStreamInfo)
    (hl : ∀ x ∈ l, (output_name_index ns x).isSome = true) :
    (sort_cmp (vstream_cmp ns) l).2 = false := by
  induction l with
  | nil => rfl
  | cons a t ih =>
    have htail := ih (fun x hx => hl x (List.mem_cons_of_mem a hx))
    have hinsert := insert_cmp_flag_false ns a (sort_cmp (vstream_cmp ns) t).1
      (hl a (List.mem_cons_self a t))
      (fun x hx => hl x (List.mem_cons_of_mem a
        ((sort_cmp_perm (vstream_cmp ns) t).mem_iff.mp hx)))
    simp [sort_cmp, htail, hinsert]

/-- If the very first comparison of an insertion latches the flag, the whole
insertion reports the flag. -/
theorem insert_cmp_flag_head_true (ns : List String) (a b : VStreamInfo)
    (t : List VStreamInfo) (h : (vstream_cmp ns a b).2 = true) :
    (insert_cmp (vstream_cmp ns) a (b :: t)).2 = true := by
  simp only [insert_cmp]
  cases hc : (vstream_cmp ns a b).1 <;> simp [h]

/-- Sorting any list of length at least two containing an absent name
latches the flag: every element of such a list takes part in at least one
comparison. -/
theorem sort_cmp_flag_absent (ns : List String) (x : VStreamInfo)
    (habs : (output_name_index ns x).isSome = false) :
    ∀ l : List VStreamInfo, x ∈ l → 2 ≤ l.length →
      (sort_cmp (vstream_cmp ns) l).2 = true := by
  intro l
  induction l with
  | nil => intro hx; cases hx
  | cons a t ih =>
    intro hx hlen
    rcases List.mem_cons.mp hx with rfl | hxt
    · have ht : t ≠ [] := by
        intro h0
        subst h0
        simp at hlen
      have hlt : (sort_cmp (vstream_cmp ns) t).1 ≠ [] := by
        intro h0
        have hlen2 := (sort_cmp_perm (vstream_cmp ns) t).length_eq
        rw [h0] at hlen2
        exact ht (List.length_eq_zero.mp hlen2.symm)
      rcases hs : (sort_cmp (vstream_cmp ns) t).1 with _ | ⟨b, t2⟩
      · exact absurd hs hlt
      · have hcmp : (vstream_cmp ns x b).2 = true := by
          rw [vstream_cmp_flag_eq, habs]
          rfl
        have hins := insert_cmp_flag_head_true ns x b t2 hcmp
        simp [sort_cmp, hs, hins]
    · rcases Nat.lt_or_ge t.length 2 with hlt2 | hge2
      · have hpos : 0 < t.length := List.length_pos.mpr
          (List.ne_nil_of_mem hxt)
        have hone : t.length = 1 := by omega
        rcases t with _ | ⟨y, t'⟩
        · cases hxt
        · rcases t' with _ | ⟨z, t''⟩
          · have hxy : x = y := by simpa using hxt
            subst hxy
            have hcmp : (vstream_cmp ns a x).2 = true := by
              rw [vstream_cmp_flag_eq, habs]
              simp
            have hins := insert_cmp_flag_head_true ns a x [] hcmp
            simp only [sort_cmp]
            have h1 : (insert_cmp (vstream_cmp ns) x []).1 = [x] := rfl
            have h2 : (insert_cmp (vstream_cmp ns) x []).2 = false := rfl
            rw [h1, h2, hins]
            rfl
          · simp at hone
      · have := ih hxt hge2
        simp [sort_cmp, this]

/-- Inserting a present element into a sorted list of present elements
keeps the list sorted by canonical index. -/
theorem insert_cmp_sorted (ns : List String) (a : VStreamInfo)
    (l : List VStreamInfo)
    (hp : ∀ x ∈ a :: l, (output_name_index ns x).isSome = true)
    (hs : l.Pairwise (fun u w => ikey ns u ≤ ikey ns w)) :
    ((insert_cmp (vstream_cmp ns) a l).1).Pairwise
      (fun u w => ikey ns u ≤ ikey ns w) := by
  induction l with
  | nil => simp [insert_cmp]
  | cons b t ih =>
    have ha := hp a (List.mem_cons_self a (b :: t))
    have hb := hp b (List.mem_cons_of_mem a (List.mem_cons_self b t))
    obtain ⟨i, hi⟩ := Option.isSome_iff_exists.mp ha
    obtain ⟨j, hj⟩ := Option.isSome_iff_exists.mp hb
    have hcmp := (vstream_cmp_present ns a b i j hi hj).1
    have hkeya : ikey ns a = i := by simp [ikey, hi]
    have hkeyb : ikey ns b = j := by simp [ikey, hj]
    rw [List.pairwise_cons] at hs
    simp only [insert_cmp]
    split
    · rename_i hcond
      have hlt : i < j := of_decide_eq_true (hcmp ▸ hcond)
      show List.Pairwise _ (a :: b :: t)
      rw [List.pairwise_cons]
      constructor
      · intro w hw
        rcases List.mem_cons.mp hw with rfl | hwt
        · rw [hkeya, hkeyb]
          exact Nat.le_of_lt hlt
        · have hjw := hs.1 w hwt
          rw [hkeya]
          rw [hkeyb] at hjw
          omega
      · exact List.pairwise_cons.mpr hs
    · rename_i hcond
      have hge : j ≤ i := by
        rcases Nat.lt_or_ge i j with hlt | hge
        · exact absurd (hcmp ▸ decide_eq_true hlt) hcond
        · exact hge
      show List.Pairwise _ (b :: (insert_cmp (vstream_cmp ns) a t).1)
      rw [List.pairwise_cons]
      constructor
      · intro w hw
        have hw2 := (insert_cmp_perm (vstream_cmp ns) a t).mem_iff.mp hw
        rcases List.mem_cons.mp hw2 with rfl | hwt
        · rw [hkeya, hkeyb]
          omega
        · exact hs.1 w hwt
      · exact ih
          (fun x hx => hp x (by
            rcases List.mem_cons.mp hx with rfl | hxt
            · exact List.mem_cons_self x (b :: t)
            · exact List.mem_cons_of_mem a (List.mem_cons_of_mem b hxt)))
          hs.2

/-- Sorting a list of present elements yields a list sorted by canonical
index. -/
theorem sort_cmp_sorted (ns : List String) (l : List VStreamInfo)
    (hp : ∀ x ∈ l, (output_name_index ns x).isSome = true) :
    ((sort_cmp (vstream_cmp ns) l).1).Pairwise
      (fun u w => ikey ns u ≤ ikey ns w) := by
  induction l with
  | nil => simp [sort_cmp]
  | cons a t ih =>
    simp only [sort_cmp]
    apply insert_cmp_sorted
    · intro x hx
      rcases List.mem_cons.mp hx with rfl | hxt
      · exact hp x (List.mem_cons_self x t)
      · exact hp x (List.mem_cons_of_mem a
          ((sort_cmp_perm (vstream_cmp ns) t).mem_iff.mp hxt))
    · exact ih (fun x hx => hp x (List.mem_cons_of_mem a hx))

/-- C1 counterexample: with one derived output vstream named `x` and a
canonical order `[y]` that does not contain `x`, the operation succeeds with
the singleton list instead of failing `INTERNAL_FAILURE`: a one-element
result never invokes the comparator, so the absence is not detected. -/
theorem output_vstream_sort_counterexample :
    get_output_vstream_infos conv_single "d" m_c1 "" = .ok [⟨"x", 0⟩]
    ∧ (convert_layer_infos_to_vstream_infos conv_single [layer_x]).length = 1
    ∧ ¬("x" ∈ m_c1.sorted_output_names) :=
  ⟨rfl, rfl, by decide⟩

/-- C1 (amended): with `hailo_net_flow` unset and the output layers derived
successfully, the query sorts the derived descriptors by the index of their
names within `sorted_output_names` whenever every name is present; when some
name is absent and the derived list has at least two elements it fails
`INTERNAL_FAILURE`; but a derived list of length at most one is returned
successfully as is, even when its name is absent, because the sort performs
no comparisons on it and the failure flag is only ever set inside the
comparator. -/
theorem output_vstream_infos_spec (conv : LayerInfo → List VStreamInfo)
    (dflt : String) (m : CoreOpMetadata) (network_name : String)
    (hflow : m.supported_features.hailo_net_flow = false)
    (layers : List LayerInfo)
    (hlayers : get_output_layer_infos_of_network dflt m network_name
      = .ok layers) :
    ((∀ v ∈ convert_layer_infos_to_vstream_infos conv layers,
        v.name ∈ m.sorted_output_names) →
      ∃ out, get_output_vstream_infos conv dflt m network_name = .ok out
        ∧ List.Perm out (convert_layer_infos_to_vstream_infos conv layers)
        ∧ out.Pairwise (fun u w =>
            ikey m.sorted_output_names u ≤ ikey m.sorted_output_names w))
    ∧ ((∃ v ∈ convert_layer_infos_to_vstream_infos conv layers,
          ¬(v.name ∈ m.sorted_output_names)) →
        2 ≤ (convert_layer_infos_to_vstream_infos conv layers).length →
        get_output_vstream_infos conv dflt m network_name
          = .error .INTERNAL_FAILURE)
    ∧ ((convert_layer_infos_to_vstream_infos conv layers).length ≤ 1 →
        get_output_vstream_infos conv dflt m network_name
          = .ok (convert_layer_infos_to_vstream_infos conv layers)) := by
  have hunfold : get_output_vstream_infos conv dflt m network_name
      = (if (sort_cmp (vstream_cmp m.sorted_output_names)
              (convert_layer_infos_to_vstream_infos conv layers)).2
         then .error .INTERNAL_FAILURE
         else .ok (sort_cmp (vstream_cmp m.sorted_output_names)
              (convert_layer_infos_to_vstream_infos conv layers)).1) := by
    rw [get_output_vstream_infos, hflow]
    simp only [Bool.false_eq_true, if_false, hlayers]
  refine ⟨?_, ?_, ?_⟩
  · intro hall
    have hp : ∀ x ∈ convert_layer_infos_to_vstream_infos conv layers,
        (output_name_index m.sorted_output_names x).isSome = true :=
      fun x hx => (output_name_index_isSome_iff _ x).mpr (hall x hx)
    have hflag := sort_cmp_flag_false m.sorted_output_names _ hp
    refine ⟨(sort_cmp (vstream_cmp m.sorted_output_names)
        (convert_layer_infos_to_vstream_infos conv layers)).1, ?_,
      sort_cmp_perm _ _, sort_cmp_sorted _ _ hp⟩
    rw [hunfold, hflag]
    rfl
  · rintro ⟨v, hv, habs⟩ hlen
    have habs2 : (output_name_index m.sorted_output_names v).isSome
        = false := by
      cases h : (output_name_index m.sorted_output_names v).isSome with
      | false => rfl
      | true => exact absurd ((output_name_index_isSome_iff _ v).mp h) habs
    have hflag := sort_cmp_flag_absent m.sorted_output_names v habs2 _ hv hlen
    rw [hunfold, hflag]
    rfl
  · intro hlen
    rcases hres : convert_layer_infos_to_vstream_infos conv layers
      with _ | ⟨a, _ | ⟨b, t⟩⟩
    · rw [hunfold, hres]
      rfl
    · rw [hunfold, hres]
      rfl
    · rw [hres] at hlen
      simp at hlen

/-- C1 witness: on metadata with output layers `a`, `b` and canonical order
`[b, a]`, both derived names are present and the query succeeds with a
sorted permutation of the derived descriptors. -/
theorem output_vstream_infos_spec_witness :
    ∃ out, get_output_vstream_infos conv_single "d" m_c1w "" = .ok out
      ∧ List.Perm out
          (convert_layer_infos_to_vstream_infos conv_single [layer_a, layer_b])
      ∧ out.Pairwise (fun u w =>
          ikey m_c1w.sorted_output_names u ≤ ikey m_c1w.sorted_output_names w) :=
  (output_vstream_infos_spec conv_single "d" m_c1w "" rfl
    [layer_a, layer_b] rfl).1 (by decide)

/-- The tail of a key-sorted association list is key-sorted and its head key
is strictly below every key of the tail. -/
theorem keys_sorted_head_lt {α : Type} :
    ∀ (rest : List (Nat × α)) (x : Nat × α),
      keys_sorted (x :: rest) = true →
      keys_sorted rest = true ∧ ∀ p ∈ rest, x.1 < p.1 := by
  intro rest
  induction rest with
  | nil =>
    intro x _
    exact ⟨rfl, by intro p hp; cases hp⟩
  | cons y t ih =>
    intro x h
    rw [keys_sorted, Bool.and_eq_true, decide_eq_true_eq] at h
    obtain ⟨ht, hall⟩ := ih y h.2
    refine ⟨h.2, ?_⟩
    intro p hp
    rcases List.mem_cons.mp hp with rfl | hpt
    · exact h.1
    · exact Nat.lt_trans h.1 (hall p hpt)

/-- On a key-sorted list the exact-match lookup finds a stored binding. -/
theorem map_find_eq_some {α : Type} (map : List (Nat × α)) (k : Nat) (v : α)
    (hs : keys_sorted map = true) (hmem : (k, v) ∈ map) :
    map_find map k = some v := by
  induction map with
  | nil => cases hmem
  | cons x rest ih =>
    rcases List.mem_cons.mp hmem with rfl | hm
    · simp [map_find]
    · obtain ⟨hrest, hall⟩ := keys_sorted_head_lt rest x hs
      have hkx : k ≠ x.1 := by
        have := hall (k, v) hm
        omega
      rcases x with ⟨k1, v1⟩
      rw [map_find, if_neg hkx]
      exact ih hrest hm

/-- The exact-match lookup misses exactly the absent keys. -/
theorem map_find_eq_none {α : Type} (map : List (Nat × α)) (k : Nat)
    (habs : ∀ p ∈ map, p.1 ≠ k) :
    map_find map k = none := by
  induction map with
  | nil => rfl
  | cons x rest ih =>
    rcases x with ⟨k1, v1⟩
    have hk1 : k ≠ k1 :=
      fun h => habs (k1, v1) (List.mem_cons_self _ _) h.symm
    rw [map_find, if_neg hk1]
    exact ih (fun p hp => habs p (List.mem_cons_of_mem _ hp))

/-- On a key-sorted list, a binding whose key is minimal is the head. -/
theorem sorted_head_of_minimal {α : Type} (map : List (Nat × α)) (k : Nat)
    (v : α) (hs : keys_sorted map = true) (hmem : (k, v) ∈ map)
    (hmin : ∀ p ∈ map, k ≤ p.1) :
    ∃ rest, map = (k, v) :: rest := by
  rcases map with _ | ⟨x, rest⟩
  · cases hmem
  · rcases List.mem_cons.mp hmem with rfl | hm
    · exact ⟨rest, rfl⟩
    · obtain ⟨_, hall⟩ := keys_sorted_head_lt rest x hs
      have h1 := hall (k, v) hm
      have h2 := hmin x (List.mem_cons_self _ _)
      omega

/-- C2 counterexample: inserting metadata `1` under bitmap `7` first and
metadata `2` under bitmap `3` second, the sentinel lookup returns `2` (the
smallest-key variant, by `std::map` ordering), not the first-inserted `1`;
and the sentinel lookup on an empty map reaches the failed assertion rather
than returning an internal-failure error. -/
theorem get_metadata_counterexample :
    get_metadata arch_map_c2 CLUSTERS_LAYOUT_IGNORE = .found 2
    ∧ get_metadata ([] : List (Nat × Nat)) CLUSTERS_LAYOUT_IGNORE
        = .assertion_violated
    ∧ (MetadataLookup.assertion_violated
        ≠ (MetadataLookup.failure .INTERNAL_FAILURE : MetadataLookup Nat))
    ∧ arch_map_c2 = [(3, 2), (7, 1)] :=
  ⟨rfl, rfl, by decide, rfl⟩

/-- C2 (amended): on a key-sorted per-arch map, `get_metadata` returns the
exact-match variant for a concrete bitmap that is a key, fails
`INTERNAL_FAILURE` for a concrete bitmap that is not a key, returns the
variant stored under the smallest key (the `begin()` of the key-ordered
map, not the first-inserted variant) for the sentinel, and on an empty map
the sentinel path reaches the assertion instead of returning an error. -/
theorem get_metadata_spec {α : Type} (map : List (Nat × α)) (bitmap : Nat)
    (hs : keys_sorted map = true) :
    (bitmap = CLUSTERS_LAYOUT_IGNORE → map = [] →
      get_metadata map bitmap = .assertion_violated)
    ∧ (bitmap = CLUSTERS_LAYOUT_IGNORE → ∀ k v, (k, v) ∈ map →
        (∀ p ∈ map, k ≤ p.1) → get_metadata map bitmap = .found v)
    ∧ (bitmap ≠ CLUSTERS_LAYOUT_IGNORE → ∀ v, (bitmap, v) ∈ map →
        get_metadata map bitmap = .found v)
    ∧ (bitmap ≠ CLUSTERS_LAYOUT_IGNORE → (∀ p ∈ map, p.1 ≠ bitmap) →
        get_metadata map bitmap = .failure .INTERNAL_FAILURE) := by
  refine ⟨?_, ?_, ?_, ?_⟩
  · intro h1 h2
    subst h1
    subst h2
    rfl
  · intro h1 k v hmem hmin
    subst h1
    obtain ⟨rest, hmap⟩ := sorted_head_of_minimal map k v hs hmem hmin
    rw [hmap, get_metadata.eq_def, if_pos rfl]
  · intro h1 v hmem
    rw [get_metadata.eq_def, if_neg h1,
      map_find_eq_some map bitmap v hs hmem]
  · intro h1 habs
    rw [get_metadata.eq_def, if_neg h1, map_find_eq_none map bitmap habs]

/-- C2 witness: on the concrete two-variant map, exact matches return the
matching variant, the sentinel returns the smallest-key variant, and an
unknown concrete bitmap fails `INTERNAL_FAILURE`. -/
theorem get_metadata_spec_witness :
    keys_sorted arch_map_c2 = true
    ∧ get_metadata arch_map_c2 7 = .found 1
    ∧ get_metadata arch_map_c2 CLUSTERS_LAYOUT_IGNORE = .found 2
    ∧ get_metadata arch_map_c2 9 = .failure .INTERNAL_FAILURE := by
  refine ⟨rfl, ?_, ?_, ?_⟩
  · exact (get_metadata_spec arch_map_c2 7 rfl).2.2.1 (by decide) 1 (by decide)
  · exact (get_metadata_spec arch_map_c2 CLUSTERS_LAYOUT_IGNORE rfl).2.1 rfl
      3 2 (by decide) (by decide)
  · exact (get_metadata_spec arch_map_c2 9 rfl).2.2.2 (by decide) (by decide)

end HailoRT
